import Mathlib

/-!
Verification development for the VibeVoice-Docker service core.

The Python source is embedded shallowly:
* `app/vibevoice_docker/model_manager.py` — `ModelManager` with its
  `loaded` dictionary (embedded as an insertion-ordered association list,
  matching Python dict iteration order), `get`, `_unload_locked` and
  `maybe_unload_idle`.
* `app/main.py` — the HTTP-activity middleware `_log_http_requests`
  (start/finish bookkeeping of the process-wide activity globals) and the
  `_maintenance_loop` idle-shutdown watchdog.
* `app/vibevoice_docker/text_normalize.py` — `_split_text_by_max_chars`
  and `normalize_single_speaker_script` with their helpers, over
  `List Char` strings.

Timestamps (`time.time()` values) are embedded as integers; the external
torch runtime (`from_pretrained`, CUDA) is opaque and appears only as a
fresh-instance token, a CUDA-availability flag, and a filesystem predicate.
-/

namespace VibeVoice

/-- `ModelId = Literal["vibevoice-1.5b", "vibevoice-7b"]`. -/
inductive ModelId
  | vibevoice15b
  | vibevoice7b
deriving DecidableEq, Repr

/-- `LoadedModel` dataclass. The opaque `processor`/`model` objects built by
`from_pretrained` are represented by a token that is fresh per load, so that
instance identity (and reloads) are observable. -/
structure LoadedModel where
  model_id : ModelId
  model_path : String
  device : String
  token : Nat
  last_used_at : Int
deriving DecidableEq, Repr

/-- The mutable fields of a `ModelManager`: the `_loaded` dict is an
insertion-ordered association list, as Python dicts preserve insertion
order; `_max_loaded_models` and `_idle_unload_seconds` are the constructor
arguments after the `max(1, ...)` clamp. -/
structure ManagerState where
  loaded : List (ModelId × LoadedModel)
  max_loaded_models : Nat
  idle_unload_seconds : Int
deriving DecidableEq, Repr

/-- Observable lifecycle events of one `get` call, in order. -/
inductive MEvent
  | evict (id : ModelId)
  | load (id : ModelId)
deriving DecidableEq, Repr

/-- The one error `get` raises before loading: `FileNotFoundError` for a
missing model directory (the spec's `ResourceNotFound`). -/
inductive GetErr
  | fileNotFound (path : String)
deriving DecidableEq, Repr

namespace ModelManager

/-- `ModelManager.__init__`: `max(1, int(max_loaded_models))`. -/
def init (idle_unload_seconds : Int) (max_loaded_models : Int) : ManagerState :=
  { loaded := []
    max_loaded_models := (max 1 max_loaded_models).toNat
    idle_unload_seconds := idle_unload_seconds }

/-- `ModelManager.resolve_model_path`. -/
def resolve_model_path (models_dir : String) : ModelId → String
  | .vibevoice15b => models_dir ++ "/VibeVoice-1.5B"
  | .vibevoice7b => models_dir ++ "/VibeVoice-7B"

/-- `ModelManager._pick_device`. -/
def pick_device (cuda_available : Bool) : String :=
  if cuda_available then "cuda" else "cpu"

/-- Python dict lookup `self._loaded.get(model_id)`. -/
def lookupLoaded (l : List (ModelId × LoadedModel)) (id : ModelId) : Option LoadedModel :=
  (l.find? (fun p => p.1 = id)).map (·.2)

/-- Python dict `pop(model_id, None)`: remove the entry with the given key
(the first occurrence; keys of a dict are unique). -/
def removeId (l : List (ModelId × LoadedModel)) (id : ModelId) : List (ModelId × LoadedModel) :=
  l.eraseP (fun p => p.1 = id)

/-- The accumulator pass of Python `min(items, key=...)`: scan left to
right, replacing the current best only on a strictly smaller key, so the
first minimum in iteration order wins. -/
def minAcc (best : ModelId × LoadedModel) (l : List (ModelId × LoadedModel)) : ModelId × LoadedModel :=
  l.foldl (fun b y => if y.2.last_used_at < b.2.last_used_at then y else b) best

/-- `min(self._loaded.items(), key=lambda kv: kv[1].last_used_at)`;
`none` on an empty dict (where Python `min` would raise). -/
def minByLastUsed : List (ModelId × LoadedModel) → Option (ModelId × LoadedModel)
  | [] => none
  | x :: xs => some (minAcc x xs)

/-- The fallible `del loaded.model` / `del loaded.processor` steps inside
`_unload_locked`, each wrapped in `try ... except Exception: pass`. -/
def delAttr (fails : Bool) : Except String Unit :=
  if fails then .error "release failed" else .ok ()

/-- `ModelManager._unload_locked`: pops the id from `_loaded`, then
releases the model and processor objects, each failure swallowed by its
`except Exception: pass`; the (opaque) `gc.collect`/`empty_cache` in the
`finally` block has no effect on `_loaded`. Returns the new `_loaded`. -/
def unload_locked (del_model_fails del_processor_fails : Bool)
    (l : List (ModelId × LoadedModel)) (id : ModelId) :
    Except String (List (ModelId × LoadedModel)) := do
  let l' := removeId l id
  let _ := match delAttr del_model_fails with
    | .ok _ => ()
    | .error _ => ()
  let _ := match delAttr del_processor_fails with
    | .ok _ => ()
    | .error _ => ()
  return l'

/-- The `while len(self._loaded) >= self._max_loaded_models:` eviction loop
in `get`: repeatedly unload the least-recently-used entry. Also returns the
eviction events in order. (Python would raise on `min([])`; that branch is
unreachable because `max_loaded_models ≥ 1`.) -/
def evictLoop (maxL : Nat) (l : List (ModelId × LoadedModel)) :
    List (ModelId × LoadedModel) × List MEvent :=
  if h : maxL ≤ l.length then
    match hm : minByLastUsed l with
    | none => (l, [])
    | some lru =>
      have hAccMem : ∀ (ys : List (ModelId × LoadedModel)) (b : ModelId × LoadedModel),
          minAcc b ys ∈ b :: ys := by
        intro ys
        induction ys with
        | nil => intro b; simp [minAcc]
        | cons y ys ih =>
          intro b
          have hstep : minAcc b (y :: ys) =
              minAcc (if y.2.last_used_at < b.2.last_used_at then y else b) ys := by
            simp [minAcc]
          rw [hstep]
          rcases List.mem_cons.mp
              (ih (if y.2.last_used_at < b.2.last_used_at then y else b)) with h1 | h1
          · rw [h1]
            by_cases hxy : y.2.last_used_at < b.2.last_used_at <;> simp [hxy]
          · simp [h1]
      have hmem : lru ∈ l := by
        match l, hm with
        | x :: xs, hm =>
          simp only [minByLastUsed, Option.some.injEq] at hm
          exact hm ▸ hAccMem xs x
      have hlt : (removeId l lru.1).length < l.length := by
        have herase : (l.eraseP (fun q => decide (q.1 = lru.1))).length = l.length - 1 :=
          List.length_eraseP_of_mem hmem (by simp)
        have hpos : 0 < l.length := List.length_pos.mpr (List.ne_nil_of_mem hmem)
        simpa [removeId, herase] using Nat.sub_lt hpos Nat.one_pos
      let rest := evictLoop maxL (removeId l lru.1)
      (rest.1, .evict lru.1 :: rest.2)
  else (l, [])
termination_by l.length

/-- Result of one `ModelManager.get` call: the returned handle (or the
raised error), the state after the call (mutations before a raise are kept,
as in Python), and the lifecycle events. -/
structure GetResult where
  ret : Except GetErr LoadedModel
  state : ManagerState
  events : List MEvent
deriving Repr

/-- `ModelManager.get`. `fs_exists` is `Path.exists` on the configured
storage; `fresh_token` stands for the new `from_pretrained` instances;
`now` is `time.time()`. -/
def get (models_dir : String) (fs_exists : String → Bool) (cuda_available : Bool)
    (now : Int) (fresh_token : Nat) (st : ManagerState) (model_id : ModelId) : GetResult :=
  match lookupLoaded st.loaded model_id with
  | some loaded =>
    -- hit: mutate `loaded.last_used_at` in place and return the same instance
    let loaded' := { loaded with last_used_at := now }
    { ret := .ok loaded'
      state := { st with loaded := st.loaded.map (fun p => if p.1 = model_id then (p.1, loaded') else p) }
      events := [] }
  | none =>
    let (l1, evs) := evictLoop st.max_loaded_models st.loaded
    let model_path := resolve_model_path models_dir model_id
    if fs_exists model_path then
      let device := pick_device cuda_available
      let loaded : LoadedModel :=
        { model_id := model_id
          model_path := model_path
          device := device
          token := fresh_token
          last_used_at := now }
      { ret := .ok loaded
        state := { st with loaded := l1 ++ [(model_id, loaded)] }
        events := evs ++ [.load model_id] }
    else
      { ret := .error (.fileNotFound model_path)
        state := { st with loaded := l1 }
        events := evs }

/-- `ModelManager.maybe_unload_idle`: iterate over a snapshot of
`_loaded.items()`, popping every entry idle for at least
`_idle_unload_seconds` and collecting its id. -/
def maybe_unload_idle (now : Int) (st : ManagerState) : ManagerState × List ModelId :=
  let r := st.loaded.foldl
    (fun (acc : List (ModelId × LoadedModel) × List ModelId) p =>
      if now - p.2.last_used_at < st.idle_unload_seconds then acc
      else (removeId acc.1 p.1, acc.2 ++ [p.1]))
    (st.loaded, [])
  ({ st with loaded := r.1 }, r.2)

/-- One `acquire` call of a sequence, with its environment snapshot: the
wall clock, the filesystem, CUDA availability and the fresh instance token
of a potential load. -/
structure AcquireCall where
  models_dir : String
  fs_exists : String → Bool
  cuda_available : Bool
  now : Int
  fresh_token : Nat
  model_id : ModelId

/-- Run a sequence of `get` calls, returning the manager state after each
call (errors raised by `get` leave the state mutations made before the
raise in place, as in Python). -/
def runAcquires (st : ManagerState) : List AcquireCall → List ManagerState
  | [] => []
  | c :: rest =>
    let r := get c.models_dir c.fs_exists c.cuda_available c.now c.fresh_token st c.model_id
    r.state :: runAcquires r.state rest

end ModelManager

/-! ## `app/main.py`: activity tracking middleware and maintenance loop -/

/-- The process-wide activity globals of `main.py`:
`_active_user_requests`, `_last_user_request_at`, `_seen_user_request`. -/
structure ActivityState where
  active_user_requests : Int
  last_user_request_at : Int
  seen_user_request : Bool
deriving DecidableEq, Repr

/-- `request.url.path not in {"/healthz", "/ping"}` in `_log_http_requests`. -/
def track_for_idle (path : String) : Bool :=
  !(path == "/healthz" || path == "/ping")

/-- The mutations `_log_http_requests` performs before `call_next`. -/
def on_request_start (path : String) (now : Int) (a : ActivityState) : ActivityState :=
  if track_for_idle path then
    { seen_user_request := true
      active_user_requests := a.active_user_requests + 1
      last_user_request_at := now }
  else a

/-- The mutations the `finally` block of `_log_http_requests` performs
after the response (also on an error path). -/
def on_request_finish (path : String) (now : Int) (a : ActivityState) : ActivityState :=
  if track_for_idle path then
    { a with
      active_user_requests := max 0 (a.active_user_requests - 1)
      last_user_request_at := now }
  else a

/-- Net effect of `_log_http_requests` on the activity globals for one
request that runs to completion (start bookkeeping, then the `finally`). -/
def log_http_requests (path : String) (start_now finish_now : Int) (a : ActivityState) : ActivityState :=
  on_request_finish path finish_now (on_request_start path start_now a)

/-- Whether a `_maintenance_loop` iteration keeps looping or returns after
requesting process termination. -/
inductive TickOutcome
  | cont
  | terminate
deriving DecidableEq, Repr

/-- Result of one iteration of `_maintenance_loop`'s `while True` body. -/
structure TickResult where
  last_unload_checked_at : Int
  mgr : ManagerState
  ran_idle_unload : Bool
  outcome : TickOutcome

/-- One iteration of `_maintenance_loop` after the `asyncio.sleep(1)`:
the 30-second idle-unload check (its exceptions are swallowed), then the
chain of idle-shutdown guards; `_request_process_exit` corresponds to the
`terminate` outcome. -/
def maintenance_tick (exit_on_idle_seconds : Int) (last_unload_checked_at : Int)
    (mgr : ManagerState) (act : ActivityState) (now : Int) : TickResult :=
  let run_unload : Bool := 30 ≤ now - last_unload_checked_at
  let last' := if run_unload then now else last_unload_checked_at
  let mgr' := if run_unload then (ModelManager.maybe_unload_idle now mgr).1 else mgr
  let outcome :=
    if exit_on_idle_seconds ≤ 0 then TickOutcome.cont
    else if !act.seen_user_request then TickOutcome.cont
    else if 0 < act.active_user_requests then TickOutcome.cont
    else if now - act.last_user_request_at < exit_on_idle_seconds then TickOutcome.cont
    else TickOutcome.terminate
  { last_unload_checked_at := last'
    mgr := mgr'
    ran_idle_unload := run_unload
    outcome := outcome }

/-- `_maintenance_loop` run over a finite prefix of ticks, each tick seeing
a snapshot of the activity globals and the clock; returns how many times
process termination was requested. The loop body returns right after the
(single) `_request_process_exit()` call, so a `terminate` outcome ends the
loop. Initially `last_unload_checked_at = 0.0`. -/
def maintenance_loop (exit_on_idle_seconds : Int) :
    Int → ManagerState → List (ActivityState × Int) → Nat
  | _, _, [] => 0
  | lastU, mgr, (act, now) :: rest =>
    let t := maintenance_tick exit_on_idle_seconds lastU mgr act now
    match t.outcome with
    | .terminate => 1
    | .cont => maintenance_loop exit_on_idle_seconds t.last_unload_checked_at t.mgr rest

/-! ## `app/vibevoice_docker/text_normalize.py`

Python strings are embedded as `List Char`; `str.strip()`, `str.splitlines()`
and `str.rfind(sub, start, end)` are embedded below. -/

/-- Python `str.strip()` with no argument: drop whitespace from both ends. -/
def pystrip (s : List Char) : List Char :=
  ((s.dropWhile Char.isWhitespace).reverse.dropWhile Char.isWhitespace).reverse

/-- Helper of `pysplitlines`: accumulate the current line (reversed). -/
def pysplitlinesAux : List Char → List Char → List (List Char)
  | [], acc => if acc.isEmpty then [] else [acc.reverse]
  | '\r' :: '\n' :: rest, acc => acc.reverse :: pysplitlinesAux rest []
  | '\r' :: rest, acc => acc.reverse :: pysplitlinesAux rest []
  | '\n' :: rest, acc => acc.reverse :: pysplitlinesAux rest []
  | c :: rest, acc => pysplitlinesAux rest (c :: acc)

/-- Python `str.splitlines()` for the common line terminators. -/
def pysplitlines (s : List Char) : List (List Char) :=
  pysplitlinesAux s []

/-- `_CJK_RE.search`: any char in the CJK unified ideographs block. -/
def contains_cjk (text : List Char) : Bool :=
  text.any (fun c => 0x4e00 ≤ c.toNat && c.toNat ≤ 0x9fff)

/-- The `period_like` replacement keys of
`normalize_cn_punctuation_to_en_comma_period`. -/
def period_like : List Char :=
  ['。', '！', '？', '；', '…', '．', '!', '?', ';']

/-- The `comma_like` replacement keys. -/
def comma_like : List Char :=
  ['，', '、', '：', '—', '－', '～', ':']

/-- The `delete_like` set: these characters are dropped. -/
def delete_like : List Char :=
  ['（', '）', '(', ')', '【', '】', '[', ']', '\x7b', '\x7d',
   '「', '」', '『', '』', '《', '》', '“', '”', '‘', '’', '\"', '\'']

/-- The character-level pass of
`normalize_cn_punctuation_to_en_comma_period` (the `for ch in text` loop). -/
def punctMapped (text : List Char) : List Char :=
  text.foldr
    (fun ch acc =>
      if ch ∈ delete_like then acc
      else if ch ∈ comma_like then ',' :: acc
      else if ch ∈ period_like then '.' :: acc
      else if ch = '\r' ∨ ch = '\n' then '.' :: acc
      else ch :: acc)
    []

/-- `re.sub(r"\s*c\s*", "c", s)` for a single non-whitespace char `c`
(used with `,` and `.`): scanning left to right, each occurrence of
whitespace-wrapped `c` collapses to a bare `c`. -/
def subWsAround (c : Char) (l : List Char) : List Char :=
  match l with
  | [] => []
  | x :: rest =>
    match hd : (x :: rest).dropWhile Char.isWhitespace with
    | c' :: r2 =>
      if c' = c then
        have hlen : (r2.dropWhile Char.isWhitespace).length < (x :: rest).length := by
          have h1 : (c' :: r2).length ≤ (x :: rest).length := by
            rw [← hd]
            exact (List.dropWhile_suffix _).length_le
          have h2 : (r2.dropWhile Char.isWhitespace).length ≤ r2.length :=
            (List.dropWhile_suffix _).length_le
          simp only [List.length_cons] at h1 ⊢
          omega
        c :: subWsAround c (r2.dropWhile Char.isWhitespace)
      else x :: subWsAround c rest
    | [] => x :: subWsAround c rest
termination_by l.length

/-- `re.sub(r"c{2,}", "c", s)`: every maximal run of `c` collapses to a
single `c` (runs of length one are unchanged). -/
def collapseRuns (c : Char) (l : List Char) : List Char :=
  match l with
  | [] => []
  | x :: rest =>
    if x = c then
      have : (rest.dropWhile (fun y => y = c)).length < (x :: rest).length :=
        Nat.lt_succ_of_le (List.dropWhile_suffix _).length_le
      c :: collapseRuns c (rest.dropWhile (fun y => y = c))
    else x :: collapseRuns c rest
termination_by l.length

/-- `normalize_cn_punctuation_to_en_comma_period`: character replacement
pass followed by the four `re.sub` cleanups, in source order. -/
def normalize_cn_punctuation_to_en_comma_period (text : List Char) : List Char :=
  if text.isEmpty then text
  else
    collapseRuns '.' (collapseRuns ',' (subWsAround '.' (subWsAround ',' (punctMapped text))))

/-- Python `s.rfind(c, start, stop)` for a single char: the largest index
`i` with `start ≤ i < min stop (len s)` and `s[i] = c`, else `none`
(Python's `-1`). Embedded as the left fold where a later hit overrides. -/
def pyrfind (s : List Char) (c : Char) (start stop : Nat) : Option Nat :=
  (List.range (min stop s.length)).foldl
    (fun acc i => if start ≤ i ∧ s.get? i = some c then some i else acc) none

/-- `_SPLIT_BREAK_CHAR`. -/
def split_break_char : Char := '.'

/-- The `cut_at` computation of one `_split_text_by_max_chars` iteration:
prefer one past the last period in `[min_cut, max_chars)`, else hard-cut. -/
def cutAt (max_chars min_cut : Nat) (remaining : List Char) : Nat :=
  match pyrfind remaining split_break_char min_cut max_chars with
  | some period_idx => period_idx + 1
  | none => max_chars

/-- The `while len(remaining) > max_chars` loop of
`_split_text_by_max_chars` (entered only with `max_chars ≥ 1`, which makes
the `cut_at = 0` guard below unreachable). -/
def splitLoop (max_chars min_cut : Nat) (remaining : List Char) : List (List Char) :=
  if hrem : max_chars < remaining.length then
    let c := cutAt max_chars min_cut remaining
    if hc : c = 0 then [remaining]
    else
      have : (pystrip (remaining.drop c)).length < remaining.length := by
        have h1 : (pystrip (remaining.drop c)).length ≤ (remaining.drop c).length := by
          unfold pystrip
          have ha : ((remaining.drop c).dropWhile Char.isWhitespace).length ≤
              (remaining.drop c).length :=
            (List.dropWhile_suffix _).length_le
          have hb : (((remaining.drop c).dropWhile Char.isWhitespace).reverse.dropWhile
              Char.isWhitespace).length ≤
              ((remaining.drop c).dropWhile Char.isWhitespace).reverse.length :=
            (List.dropWhile_suffix _).length_le
          simp only [List.length_reverse] at hb ⊢
          omega
        have h2 : (remaining.drop c).length = remaining.length - c := List.length_drop _ _
        omega
      let head := pystrip (remaining.take c)
      (if head.isEmpty then [] else [head]) ++ splitLoop max_chars min_cut (pystrip (remaining.drop c))
  else if remaining.isEmpty then [] else [remaining]
termination_by remaining.length

/-- `_split_text_by_max_chars`. -/
def split_text_by_max_chars (text : List Char) (max_chars : Int) : List (List Char) :=
  if max_chars ≤ 0 ∨ (text.length : Int) ≤ max_chars then [text]
  else splitLoop max_chars.toNat (max 1 (max_chars.toNat / 2)) text

/-- The cut position exactly as claim C10 words it: one past the last
period in the window `[max_chars / 2, max_chars)`, else `max_chars`. Spec
side of the comparison with `cutAt`, which uses `max 1 (max_chars / 2)`. -/
def claimCutSpec (text : List Char) (max_chars : Nat) : Nat :=
  match pyrfind text split_break_char (max_chars / 2) max_chars with
  | some i => i + 1
  | none => max_chars

/-- Decimal digits to the `int(...)` value. -/
def digitsToNat (ds : List Char) : Nat :=
  ds.foldl (fun n c => n * 10 + (c.toNat - '0'.toNat)) 0

/-- `_SPEAKER_LINE_RE.match(line)`:
`^\s*Speaker\s*(\d+)\s*:\s*(.*)$`, case-insensitive; returns the speaker
number and the text after the colon (with its leading whitespace dropped,
as the regex's `\s*` consumes it). -/
def matchSpeakerLine (line : List Char) : Option (Nat × List Char) :=
  let s1 := line.dropWhile Char.isWhitespace
  if (s1.take 7).map Char.toLower = "speaker".toList then
    let s2 := (s1.drop 7).dropWhile Char.isWhitespace
    let digits := s2.takeWhile Char.isDigit
    if digits.isEmpty then none
    else
      match (s2.dropWhile Char.isDigit).dropWhile Char.isWhitespace with
      | ':' :: s4 => some (digitsToNat digits, s4.dropWhile Char.isWhitespace)
      | _ => none
  else none

/-- Python `set.add` on the insertion-ordered model of a set. -/
def insertSet (l : List Nat) (n : Nat) : List Nat :=
  if n ∈ l then l else l ++ [n]

/-- The loop state of `normalize_single_speaker_script`. -/
structure NormState where
  out_lines : List (List Char)
  speaker_ids : List Nat
  current_speaker_id : Option Nat

/-- The common tail of the loop body of `normalize_single_speaker_script`
once the line's `speaker_id` and `text` are determined: record the id,
check the single-speaker constraint, optionally normalize punctuation,
split long text and emit the `Speaker N: part` lines. -/
def processSpeakerText (enable_cn_punct_normalize : Bool) (max_chars_per_line : Int)
    (st : NormState) (speaker_id : Nat) (text : List Char) : Except String NormState :=
  let ids := insertSet st.speaker_ids speaker_id
  if 1 < ids.length then
    .error "Multi-speaker script is not supported (only one Speaker id is allowed)."
  else
    let text :=
      if enable_cn_punct_normalize && contains_cjk text then
        normalize_cn_punctuation_to_en_comma_period text
      else text
    let cleaned := pystrip text
    let out :=
      if cleaned.isEmpty then st.out_lines
      else
        st.out_lines ++
          (split_text_by_max_chars cleaned max_chars_per_line).map
            (fun part => "Speaker ".toList ++ (toString speaker_id).toList ++ ": ".toList ++ part)
    .ok { out_lines := out, speaker_ids := ids, current_speaker_id := some speaker_id }

/-- The body of the `for raw_line in script.splitlines()` loop of
`normalize_single_speaker_script`; `.error` is a raised `ValueError`. -/
def processLine (enable_cn_punct_normalize : Bool) (max_chars_per_line : Int)
    (st : NormState) (raw_line : List Char) : Except String NormState :=
  let line := pystrip raw_line
  if line.isEmpty then .ok st
  else
    match matchSpeakerLine line with
    | some (speaker_id, text) =>
      processSpeakerText enable_cn_punct_normalize max_chars_per_line st speaker_id (pystrip text)
    | none =>
      match st.current_speaker_id with
      | none => .error "Invalid script line (missing Speaker prefix)"
      | some speaker_id =>
        processSpeakerText enable_cn_punct_normalize max_chars_per_line st speaker_id line

/-- The whole `for` loop, short-circuiting on a raised `ValueError`. -/
def processLines (enable_cn_punct_normalize : Bool) (max_chars_per_line : Int) :
    NormState → List (List Char) → Except String NormState
  | st, [] => .ok st
  | st, line :: rest =>
    match processLine enable_cn_punct_normalize max_chars_per_line st line with
    | .error e => .error e
    | .ok st' => processLines enable_cn_punct_normalize max_chars_per_line st' rest

/-- `normalize_single_speaker_script`. The per-line length limit read from
the environment by `_get_script_line_max_chars` is a parameter. -/
def normalize_single_speaker_script (enable_cn_punct_normalize : Bool)
    (max_chars_per_line : Int) (script : List Char) : Except String (List Char) :=
  if (pystrip script).isEmpty then .error "input is empty"
  else
    match processLines enable_cn_punct_normalize max_chars_per_line
        { out_lines := [], speaker_ids := [], current_speaker_id := none }
        (pysplitlines script) with
    | .error e => .error e
    | .ok st =>
      if st.out_lines.isEmpty then .error "No valid content found in input."
      else .ok (List.intercalate ['\n'] st.out_lines)

/-- The speaker id carried by one raw line, when the line matches the
speaker pattern after stripping. -/
def lineIdOf (raw_line : List Char) : Option Nat :=
  (matchSpeakerLine (pystrip raw_line)).map (·.1)

/-- The speaker ids of the lines that match the speaker-line pattern after
stripping, in order (the identities a script "mixes"). -/
def matchedIds (script : List Char) : List Nat :=
  (pysplitlines script).filterMap lineIdOf

/-- Whether an embedded call raised. -/
def isErr {ε α : Type} : Except ε α → Bool
  | .error _ => true
  | .ok _ => false

/-! ## Concrete sample states for counterexamples and witnesses -/

/-- A loaded 1.5B handle, last used at time 0. -/
def sample_h15 : LoadedModel :=
  { model_id := .vibevoice15b
    model_path := "/models/VibeVoice-1.5B"
    device := "cpu"
    token := 0
    last_used_at := 0 }

/-- A loaded 7B handle, last used at time 100. -/
def sample_h7 : LoadedModel :=
  { model_id := .vibevoice7b
    model_path := "/models/VibeVoice-7B"
    device := "cpu"
    token := 1
    last_used_at := 100 }

/-- A manager at capacity (`maxLoaded = 1`) holding the 1.5B model. -/
def sample_st_cap : ManagerState :=
  { loaded := [(.vibevoice15b, sample_h15)]
    max_loaded_models := 1
    idle_unload_seconds := 900 }

/-- A manager with room (`maxLoaded = 2`) holding both models. -/
def sample_st_two : ManagerState :=
  { loaded := [(.vibevoice15b, sample_h15), (.vibevoice7b, sample_h7)]
    max_loaded_models := 2
    idle_unload_seconds := 50 }

/-! # Theorems -/

namespace ModelManager

theorem minAcc_first_min (l : List (ModelId × LoadedModel)) :
    ∀ b, ∃ l1 y l2, b :: l = l1 ++ y :: l2 ∧ minAcc b l = y ∧
      (∀ z ∈ l1, y.2.last_used_at < z.2.last_used_at) ∧
      (∀ z ∈ l2, y.2.last_used_at ≤ z.2.last_used_at) := by
  induction l with
  | nil =>
    intro b
    exact ⟨[], b, [], rfl, rfl, by simp, by simp⟩
  | cons x xs ih =>
    intro b
    have hstep : minAcc b (x :: xs) =
        minAcc (if x.2.last_used_at < b.2.last_used_at then x else b) xs := by
      simp [minAcc]
    by_cases hx : x.2.last_used_at < b.2.last_used_at
    · obtain ⟨l1, y, l2, heq, hval, hl1, hl2⟩ := ih x
      have hyb : y.2.last_used_at < b.2.last_used_at := by
        match l1, heq with
        | [], heq =>
          have : y = x := by
            have := congrArg (fun t => t.head?) heq
            simpa using this.symm
          rw [this]; exact hx
        | x' :: l1', heq =>
          have hx' : x' = x := by
            have := congrArg (fun t => t.head?) heq
            simpa using this.symm
          have : y.2.last_used_at < x.2.last_used_at := hx' ▸ hl1 x' (by simp)
          exact lt_trans this hx
      refine ⟨b :: l1, y, l2, ?_, ?_, ?_, hl2⟩
      · rw [List.cons_append, ← heq]
      · rw [hstep, if_pos hx, hval]
      · intro z hz
        rcases List.mem_cons.mp hz with rfl | hz
        · exact hyb
        · exact hl1 z hz
    · obtain ⟨l1, y, l2, heq, hval, hl1, hl2⟩ := ih b
      match l1, heq with
      | [], heq =>
        have hyb : y = b := by
          have := congrArg (fun t => t.head?) heq
          simpa using this.symm
        have hl2' : xs = l2 := by
          subst hyb
          simpa using heq
        refine ⟨[], b, x :: xs, by simp, ?_, by simp, ?_⟩
        · rw [hstep, if_neg hx, hval, hyb]
        · intro z hz
          rcases List.mem_cons.mp hz with rfl | hz
          · exact le_of_not_lt hx
          · exact hyb ▸ hl2 z (hl2' ▸ hz)
      | b' :: l1', heq =>
        have hb' : b' = b := by
          have := congrArg (fun t => t.head?) heq
          simpa using this.symm
        subst hb'
        have hxs : xs = l1' ++ y :: l2 := by
          simpa using heq
        have hyb : y.2.last_used_at < b'.2.last_used_at := hl1 b' (by simp)
        refine ⟨b' :: x :: l1', y, l2, ?_, ?_, ?_, hl2⟩
        · simp [hxs]
        · rw [hstep, if_neg hx, hval]
        · intro z hz
          rcases List.mem_cons.mp hz with rfl | hz
          · exact hyb
          · rcases List.mem_cons.mp hz with rfl | hz
            · exact lt_of_lt_of_le hyb (le_of_not_lt hx)
            · exact hl1 z (by simp [hz])

theorem minByLastUsed_mem {l : List (ModelId × LoadedModel)} {y : ModelId × LoadedModel}
    (h : minByLastUsed l = some y) : y ∈ l := by
  match l, h with
  | x :: xs, h =>
    simp only [minByLastUsed, Option.some.injEq] at h
    obtain ⟨l1, y', l2, heq, hval, -, -⟩ := minAcc_first_min xs x
    rw [hval] at h
    subst h
    rw [heq]
    simp

theorem removeId_length {l : List (ModelId × LoadedModel)} {y : ModelId × LoadedModel}
    (hy : y ∈ l) : (removeId l y.1).length = l.length - 1 := by
  simpa [removeId] using List.length_eraseP_of_mem hy (by simp)

theorem evictLoop_stop {maxL : Nat} {l : List (ModelId × LoadedModel)}
    (h : ¬maxL ≤ l.length) : evictLoop maxL l = (l, []) := by
  rw [evictLoop]
  simp [h]

theorem evictLoop_step {maxL : Nat} {l : List (ModelId × LoadedModel)}
    {lru : ModelId × LoadedModel} (h : maxL ≤ l.length) (hm : minByLastUsed l = some lru) :
    evictLoop maxL l =
      ((evictLoop maxL (removeId l lru.1)).1,
        .evict lru.1 :: (evictLoop maxL (removeId l lru.1)).2) := by
  rw [evictLoop]
  rw [dif_pos h]
  split
  · next heq => rw [hm] at heq; cases heq
  · next lru' heq =>
    rw [hm] at heq
    cases heq
    rfl

theorem evictLoop_length {maxL : Nat} (h1 : 1 ≤ maxL) :
    ∀ (n : Nat) (l : List (ModelId × LoadedModel)), l.length ≤ n →
      (evictLoop maxL l).1.length < maxL := by
  intro n
  induction n with
  | zero =>
    intro l hl
    have : l = [] := List.eq_nil_of_length_eq_zero (Nat.le_zero.mp hl)
    subst this
    rw [evictLoop_stop (by simp; omega)]
    simpa using h1
  | succ n ih =>
    intro l hl
    by_cases hcap : maxL ≤ l.length
    · match l, hcap with
      | [], hcap =>
        simp only [List.length_nil] at hcap
        omega
      | x :: xs, hcap =>
        have hm : minByLastUsed (x :: xs) = some (minAcc x xs) := rfl
        rw [evictLoop_step hcap hm]
        have hmem : minAcc x xs ∈ x :: xs := minByLastUsed_mem hm
        have hlen : (removeId (x :: xs) (minAcc x xs).1).length = (x :: xs).length - 1 :=
          removeId_length hmem
        refine ih _ ?_
        rw [hlen]
        simp only [List.length_cons] at hl ⊢
        omega
    · rw [evictLoop_stop hcap]
      exact Nat.lt_of_not_le hcap

theorem get_config_unchanged (models_dir : String) (fs_exists : String → Bool)
    (cuda_available : Bool) (now : Int) (fresh_token : Nat) (st : ManagerState)
    (model_id : ModelId) :
    (get models_dir fs_exists cuda_available now fresh_token st model_id).state.max_loaded_models
        = st.max_loaded_models ∧
      (get models_dir fs_exists cuda_available now fresh_token st model_id).state.idle_unload_seconds
        = st.idle_unload_seconds := by
  unfold get
  cases lookupLoaded st.loaded model_id <;> dsimp only <;>
    [skip; constructor <;> rfl]
  split <;> constructor <;> rfl

theorem get_length_le {st : ManagerState} (hlen : st.loaded.length ≤ st.max_loaded_models)
    (h1 : 1 ≤ st.max_loaded_models) (models_dir : String) (fs_exists : String → Bool)
    (cuda_available : Bool) (now : Int) (fresh_token : Nat) (model_id : ModelId) :
    (get models_dir fs_exists cuda_available now fresh_token st model_id).state.loaded.length
      ≤ st.max_loaded_models := by
  unfold get
  cases lookupLoaded st.loaded model_id <;> dsimp only
  · have hev : (evictLoop st.max_loaded_models st.loaded).1.length < st.max_loaded_models :=
      evictLoop_length h1 st.loaded.length st.loaded le_rfl
    split <;> simp <;> omega
  · simpa using hlen

theorem unload_locked_removes (del_model_fails del_processor_fails : Bool)
    (l : List (ModelId × LoadedModel)) (id : ModelId) :
    unload_locked del_model_fails del_processor_fails l id = .ok (removeId l id) := rfl

theorem removeId_not_mem {l : List (ModelId × LoadedModel)} {id : ModelId}
    (hn : (l.map Prod.fst).Nodup) : id ∉ (removeId l id).map Prod.fst := by
  induction l with
  | nil => simp [removeId]
  | cons p rest ih =>
    simp only [List.map_cons, List.nodup_cons] at hn
    by_cases hp : p.1 = id
    · have : removeId (p :: rest) id = rest := by
        simp [removeId, List.eraseP_cons, hp]
      rw [this]
      rw [← hp]
      exact hn.1
    · have : removeId (p :: rest) id = p :: removeId rest id := by
        simp [removeId, List.eraseP_cons, hp]
      rw [this]
      simp only [List.map_cons, List.mem_cons]
      rintro (rfl | hmem)
      · exact hp rfl
      · exact ih hn.2 hmem

end ModelManager

/-- **C8.** Eviction (`ModelManager._unload_locked`) always removes the
handle from the `loaded` mapping, for every combination of failures of the
best-effort release steps: no failure propagates (the call returns `.ok`),
the result is exactly `loaded` minus the entry, and the evicted identity is
no longer a key of the mapping. -/
theorem C8_unload_always_removes :
    ∀ (del_model_fails del_processor_fails : Bool)
      (l : List (ModelId × LoadedModel)) (id : ModelId),
      ModelManager.unload_locked del_model_fails del_processor_fails l id
          = .ok (ModelManager.removeId l id)
        ∧ ((l.map Prod.fst).Nodup → id ∉ (ModelManager.removeId l id).map Prod.fst) := by
  intro dmf dpf l id
  exact ⟨ModelManager.unload_locked_removes dmf dpf l id,
    fun hn => ModelManager.removeId_not_mem hn⟩

/-- Witness for C8 at a concrete state: both release steps fail, yet the
entry is removed and no error is raised. -/
theorem C8_unload_always_removes_witness :
    (([(ModelId.vibevoice15b, sample_h15)].map Prod.fst).Nodup)
      ∧ ModelManager.unload_locked true true [(ModelId.vibevoice15b, sample_h15)]
          ModelId.vibevoice15b = .ok []
      ∧ ModelId.vibevoice15b ∉
          (ModelManager.removeId [(ModelId.vibevoice15b, sample_h15)]
            ModelId.vibevoice15b).map Prod.fst := by
  refine ⟨by decide, ?_, ?_⟩
  · have h := (C8_unload_always_removes true true [(ModelId.vibevoice15b, sample_h15)]
      ModelId.vibevoice15b).1
    simpa [ModelManager.removeId] using h
  · exact (C8_unload_always_removes true true [(ModelId.vibevoice15b, sample_h15)]
      ModelId.vibevoice15b).2 (by decide)

namespace ModelManager

theorem runAcquires_length_inv :
    ∀ (calls : List AcquireCall) (st : ManagerState),
      st.loaded.length ≤ st.max_loaded_models → 1 ≤ st.max_loaded_models →
      ∀ s ∈ runAcquires st calls,
        s.loaded.length ≤ s.max_loaded_models ∧ s.max_loaded_models = st.max_loaded_models := by
  intro calls
  induction calls with
  | nil =>
    intro st _ _ s hs
    simp [runAcquires] at hs
  | cons c rest ih =>
    intro st hlen h1 s hs
    simp only [runAcquires, List.mem_cons] at hs
    have hcfg := get_config_unchanged c.models_dir c.fs_exists c.cuda_available c.now
      c.fresh_token st c.model_id
    have hlen' := get_length_le hlen h1 c.models_dir c.fs_exists c.cuda_available c.now
      c.fresh_token c.model_id
    rcases hs with rfl | hs
    · exact ⟨hcfg.1 ▸ hlen', hcfg.1⟩
    · have := ih _ (hcfg.1 ▸ hlen') (hcfg.1 ▸ h1) s hs
      exact ⟨this.1, hcfg.1 ▸ this.2⟩

theorem unload_fold (w now : Int) :
    ∀ (l pre : List (ModelId × LoadedModel)) (evs : List ModelId),
      (l.map Prod.fst).Nodup →
      (∀ q ∈ pre, ∀ p ∈ l, q.1 ≠ p.1) →
      l.foldl (fun acc p => if now - p.2.last_used_at < w then acc
        else (removeId acc.1 p.1, acc.2 ++ [p.1])) (pre ++ l, evs)
      = (pre ++ l.filter (fun p => decide (now - p.2.last_used_at < w)),
         evs ++ (l.filter (fun p => !decide (now - p.2.last_used_at < w))).map Prod.fst) := by
  intro l
  induction l with
  | nil =>
    intro pre evs _ _
    simp
  | cons p rest ih =>
    intro pre evs hnodup hdisj
    simp only [List.map_cons, List.nodup_cons] at hnodup
    simp only [List.foldl_cons]
    by_cases hk : now - p.2.last_used_at < w
    · rw [if_pos hk]
      have hre : pre ++ p :: rest = (pre ++ [p]) ++ rest := by simp
      rw [hre, ih (pre ++ [p]) evs hnodup.2 ?_]
      · simp [List.filter_cons, hk]
      · intro q hq z hz
        rcases List.mem_append.mp hq with hq | hq
        · exact hdisj q hq z (List.mem_cons_of_mem _ hz)
        · have : q = p := by simpa using hq
          subst this
          intro hqz
          exact hnodup.1 (hqz ▸ List.mem_map_of_mem Prod.fst hz)
    · rw [if_neg hk]
      have hrm : removeId (pre ++ p :: rest) p.1 = pre ++ rest := by
        unfold removeId
        rw [List.eraseP_append_right (p :: rest)
          (by intro q hq; simpa using hdisj q hq p (by simp))]
        rw [List.eraseP_cons_of_pos (by simp)]
      rw [hrm, ih pre (evs ++ [p.1]) hnodup.2 ?_]
      · simp [List.filter_cons, hk]
      · intro q hq z hz
        exact hdisj q hq z (List.mem_cons_of_mem _ hz)

end ModelManager

/-- **C2.** For every sequence of `acquire` (`ModelManager.get`) calls on a
freshly constructed manager (any constructor argument; the source clamps it
to `maxLoaded ≥ 1`), the size of the `loaded` mapping is at most
`maxLoaded` after each call returns — including calls that evict and calls
that raise. -/
theorem C2_loaded_size_bounded :
    ∀ (idle max_arg : Int) (calls : List ModelManager.AcquireCall),
      ∀ s ∈ ModelManager.runAcquires (ModelManager.init idle max_arg) calls,
        s.loaded.length ≤ (ModelManager.init idle max_arg).max_loaded_models := by
  intro idle max_arg calls s hs
  have h1 : 1 ≤ (ModelManager.init idle max_arg).max_loaded_models := by
    simp only [ModelManager.init]
    omega
  have h0 : (ModelManager.init idle max_arg).loaded.length
      ≤ (ModelManager.init idle max_arg).max_loaded_models := by
    simp only [ModelManager.init, List.length_nil]
    omega
  have h := ModelManager.runAcquires_length_inv calls _ h0 h1 s hs
  exact h.2 ▸ h.1

/-- Witness for C2: one call sequence on a fresh manager; the call's
artifact is missing, so the state after the call is the initial state. -/
theorem C2_loaded_size_bounded_witness :
    (ModelManager.init 900 1 ∈ ModelManager.runAcquires (ModelManager.init 900 1)
      [{ models_dir := "/models", fs_exists := fun _ => false, cuda_available := false,
         now := 5, fresh_token := 3, model_id := .vibevoice7b }])
    ∧ (ModelManager.init 900 1).loaded.length ≤ (ModelManager.init 900 1).max_loaded_models := by
  have hmem : ModelManager.init 900 1 ∈ ModelManager.runAcquires (ModelManager.init 900 1)
      [{ models_dir := "/models", fs_exists := fun _ => false, cuda_available := false,
         now := 5, fresh_token := 3, model_id := .vibevoice7b }] := by
    simp [ModelManager.runAcquires, ModelManager.get, ModelManager.init,
      ModelManager.lookupLoaded, ModelManager.evictLoop_stop, ModelManager.resolve_model_path]
  exact ⟨hmem, C2_loaded_size_bounded 900 1 _ _ hmem⟩

/-- **C5.** `ModelManager.maybe_unload_idle` evicts exactly the loaded
entries whose idle time `now - lastUsedAt` is at least the idle-unload
window, returns their identities (in insertion order), keeps exactly the
other entries unchanged (same handles, same `lastUsedAt`, same order), and
leaves the configuration fields untouched. -/
theorem C5_idle_eviction_exact :
    ∀ (now : Int) (st : ManagerState), (st.loaded.map Prod.fst).Nodup →
      (ModelManager.maybe_unload_idle now st).1.loaded
          = st.loaded.filter (fun p => decide (now - p.2.last_used_at < st.idle_unload_seconds))
        ∧ (ModelManager.maybe_unload_idle now st).2
          = (st.loaded.filter
              (fun p => !decide (now - p.2.last_used_at < st.idle_unload_seconds))).map Prod.fst
        ∧ (ModelManager.maybe_unload_idle now st).1.max_loaded_models = st.max_loaded_models
        ∧ (ModelManager.maybe_unload_idle now st).1.idle_unload_seconds
          = st.idle_unload_seconds := by
  intro now st hnodup
  have h := ModelManager.unload_fold st.idle_unload_seconds now st.loaded [] [] hnodup
    (by intro q hq; simp at hq)
  simp only [List.nil_append] at h
  unfold ModelManager.maybe_unload_idle
  rw [h]
  simp

/-- Witness for C5 at a concrete two-entry manager: the stale entry is
evicted and returned, the fresh one is kept untouched. -/
theorem C5_idle_eviction_exact_witness :
    ((sample_st_two.loaded.map Prod.fst).Nodup)
    ∧ (ModelManager.maybe_unload_idle 120 sample_st_two).1.loaded
        = [(.vibevoice7b, sample_h7)]
    ∧ (ModelManager.maybe_unload_idle 120 sample_st_two).2 = [.vibevoice15b] := by
  have h := C5_idle_eviction_exact 120 sample_st_two (by decide)
  refine ⟨by decide, ?_, ?_⟩
  · rw [h.1]
    decide
  · rw [h.2.1]
    decide

/-- **C1 is false as stated.** At capacity, `get` runs the LRU eviction
loop *before* checking that the artifact directory exists, so a call for a
missing artifact raises `FileNotFoundError` but leaves `loaded` mutated
(the LRU entry was evicted and not restored). Moreover an identity that is
already loaded is returned without any existence check, so no error is
raised at all even though its directory is gone. -/
theorem C1_missing_artifact_counterexample :
    (isErr (ModelManager.get "/models" (fun _ => false) false 10 1 sample_st_cap
        .vibevoice7b).ret = true
      ∧ (ModelManager.get "/models" (fun _ => false) false 10 1 sample_st_cap
          .vibevoice7b).state.loaded ≠ sample_st_cap.loaded)
    ∧ isErr (ModelManager.get "/models" (fun _ => false) false 10 1 sample_st_cap
        .vibevoice15b).ret = false := by
  refine ⟨⟨?_, ?_⟩, ?_⟩ <;>
    simp [ModelManager.get, sample_st_cap, sample_h15, ModelManager.lookupLoaded,
      ModelManager.evictLoop, ModelManager.removeId, ModelManager.resolve_model_path, isErr,
      ModelManager.minByLastUsed, ModelManager.minAcc]

/-- **C1 (amended).** For every identity that is *not currently loaded*
and whose backing artifact directory does not exist, `get` raises
`FileNotFoundError` and adds no entry; if additionally the `loaded`
mapping is *below capacity* (`|loaded| < maxLoaded`, so the eviction loop
does not run), the state is left exactly as it was and no entry is
evicted. (At capacity the LRU entry is evicted before the existence check;
for an already-loaded identity no check happens at all — both shown by the
counterexample.) -/
theorem C1_missing_artifact_amended :
    ∀ (models_dir : String) (fs_exists : String → Bool) (cuda : Bool) (now : Int) (tok : Nat)
      (st : ManagerState) (mid : ModelId),
      ModelManager.lookupLoaded st.loaded mid = none →
      fs_exists (ModelManager.resolve_model_path models_dir mid) = false →
      st.loaded.length < st.max_loaded_models →
      (ModelManager.get models_dir fs_exists cuda now tok st mid).ret
          = .error (.fileNotFound (ModelManager.resolve_model_path models_dir mid))
        ∧ (ModelManager.get models_dir fs_exists cuda now tok st mid).state = st
        ∧ (ModelManager.get models_dir fs_exists cuda now tok st mid).events = [] := by
  intro dir fs cuda now tok st mid hmiss hfs hlt
  have hev : ModelManager.evictLoop st.max_loaded_models st.loaded = (st.loaded, []) :=
    ModelManager.evictLoop_stop (by omega)
  unfold ModelManager.get
  rw [hmiss]
  simp only [hev, hfs]
  simp

/-- Witness for the amended C1 at the fresh manager (below capacity):
the raise happens and the state is untouched. -/
theorem C1_missing_artifact_amended_witness :
    (ModelManager.lookupLoaded (ModelManager.init 900 1).loaded .vibevoice7b = none
      ∧ (fun _ => false) (ModelManager.resolve_model_path "/models" .vibevoice7b) = false
      ∧ (ModelManager.init 900 1).loaded.length < (ModelManager.init 900 1).max_loaded_models)
    ∧ (ModelManager.get "/models" (fun _ => false) false 10 1 (ModelManager.init 900 1)
          .vibevoice7b).ret
        = .error (.fileNotFound (ModelManager.resolve_model_path "/models" .vibevoice7b))
    ∧ (ModelManager.get "/models" (fun _ => false) false 10 1 (ModelManager.init 900 1)
        .vibevoice7b).state = ModelManager.init 900 1 := by
  have h := C1_missing_artifact_amended "/models" (fun _ => false) false 10 1
    (ModelManager.init 900 1) .vibevoice7b (by decide) rfl (by decide)
  exact ⟨⟨by decide, rfl, by decide⟩, h.1, h.2.1⟩

namespace ModelManager

theorem lookupLoaded_map_update {l : List (ModelId × LoadedModel)} {mid : ModelId}
    {m m' : LoadedModel} (h : lookupLoaded l mid = some m) :
    lookupLoaded (l.map (fun p => if p.1 = mid then (p.1, m') else p)) mid = some m' := by
  induction l with
  | nil => simp [lookupLoaded] at h
  | cons p rest ih =>
    by_cases hp : p.1 = mid
    · simp [lookupLoaded, List.find?_cons, hp]
    · simp only [lookupLoaded, List.map_cons, List.find?_cons, if_neg hp] at h ⊢
      rw [decide_eq_false hp] at h ⊢
      exact ih h

end ModelManager

/-- **C6.** For an identity already present in `loaded`, `get` returns the
stored handle itself with only its `lastUsedAt` field advanced to `now`
(all other fields — identity, path, device, and the opaque instance token —
are those of the stored handle, so no reload occurs and no load event is
emitted), the stored entry now holds exactly the returned handle, and
nothing else in the state changes. -/
theorem C6_hit_is_idempotent :
    ∀ (models_dir : String) (fs_exists : String → Bool) (cuda : Bool) (now : Int) (tok : Nat)
      (st : ManagerState) (mid : ModelId) (m : LoadedModel),
      ModelManager.lookupLoaded st.loaded mid = some m →
      (ModelManager.get models_dir fs_exists cuda now tok st mid).ret
          = .ok { m with last_used_at := now }
        ∧ (ModelManager.get models_dir fs_exists cuda now tok st mid).events = []
        ∧ (ModelManager.get models_dir fs_exists cuda now tok st mid).state.loaded
          = st.loaded.map
              (fun p => if p.1 = mid then (p.1, { m with last_used_at := now }) else p)
        ∧ (ModelManager.get models_dir fs_exists cuda now tok st mid).state.max_loaded_models
          = st.max_loaded_models
        ∧ (ModelManager.get models_dir fs_exists cuda now tok st mid).state.idle_unload_seconds
          = st.idle_unload_seconds
        ∧ ModelManager.lookupLoaded
            (ModelManager.get models_dir fs_exists cuda now tok st mid).state.loaded mid
          = some { m with last_used_at := now } := by
  intro dir fs cuda now tok st mid m hhit
  unfold ModelManager.get
  rw [hhit]
  exact ⟨rfl, rfl, rfl, rfl, rfl, ModelManager.lookupLoaded_map_update hhit⟩

/-- Witness for C6 at a concrete two-entry manager. -/
theorem C6_hit_is_idempotent_witness :
    ModelManager.lookupLoaded sample_st_two.loaded .vibevoice15b = some sample_h15
      ∧ (ModelManager.get "/models" (fun _ => true) false 7 9 sample_st_two .vibevoice15b).ret
        = .ok { sample_h15 with last_used_at := 7 }
      ∧ (ModelManager.get "/models" (fun _ => true) false 7 9 sample_st_two .vibevoice15b).events
        = [] := by
  have h := C6_hit_is_idempotent "/models" (fun _ => true) false 7 9 sample_st_two
    .vibevoice15b sample_h15 (by decide)
  exact ⟨by decide, h.1, h.2.1⟩

namespace ModelManager

theorem keys_split_ne {l1 l2 : List (ModelId × LoadedModel)} {y z : ModelId × LoadedModel}
    (hnodup : ((l1 ++ y :: l2).map Prod.fst).Nodup) (hz : z ∈ l1) : z.1 ≠ y.1 := by
  simp only [List.map_append, List.map_cons, List.nodup_append] at hnodup
  intro he
  exact hnodup.2.2 (List.mem_map_of_mem Prod.fst hz) (by simp [he])

end ModelManager

/-- **C3.** When `get` is called for an identity not currently loaded
while `loaded` is at capacity, the entry evicted before the load is
exactly the first entry (in insertion order) attaining the minimal
`lastUsedAt`: the loaded list splits as `l1 ++ y :: l2` where every entry
of `l1` is strictly younger than `y` and every entry of `l2` is at least
as old as `y`, the events are precisely `[evict y, load mid]`, and the new
state is the old list minus `y` plus the freshly loaded entry. -/
theorem C3_evicts_first_lru :
    ∀ (models_dir : String) (fs_exists : String → Bool) (cuda : Bool) (now : Int) (tok : Nat)
      (st : ManagerState) (mid : ModelId),
      (st.loaded.map Prod.fst).Nodup →
      ModelManager.lookupLoaded st.loaded mid = none →
      st.loaded.length = st.max_loaded_models →
      1 ≤ st.max_loaded_models →
      fs_exists (ModelManager.resolve_model_path models_dir mid) = true →
      ∃ l1 y l2, st.loaded = l1 ++ y :: l2
        ∧ (∀ z ∈ l1, y.2.last_used_at < z.2.last_used_at)
        ∧ (∀ z ∈ l2, y.2.last_used_at ≤ z.2.last_used_at)
        ∧ (ModelManager.get models_dir fs_exists cuda now tok st mid).events
          = [.evict y.1, .load mid]
        ∧ (ModelManager.get models_dir fs_exists cuda now tok st mid).state.loaded
          = (l1 ++ l2) ++ [(mid,
              { model_id := mid
                model_path := ModelManager.resolve_model_path models_dir mid
                device := ModelManager.pick_device cuda
                token := tok
                last_used_at := now })] := by
  intro dir fs cuda now tok st mid hnodup hmiss hcap h1 hfs
  match hload : st.loaded with
  | [] =>
    rw [hload] at hcap
    simp only [List.length_nil] at hcap
    omega
  | x :: xs =>
    obtain ⟨l1, y, l2, heq, hval, hl1, hl2⟩ := ModelManager.minAcc_first_min xs x
    have hm : ModelManager.minByLastUsed (x :: xs) = some y := by
      simp only [ModelManager.minByLastUsed, hval]
    have hnodup' : (((l1 ++ y :: l2)).map Prod.fst).Nodup := by
      rw [← heq, ← hload]
      exact hnodup
    have hrm : ModelManager.removeId (x :: xs) y.1 = l1 ++ l2 := by
      rw [heq]
      unfold ModelManager.removeId
      rw [List.eraseP_append_right (y :: l2)
        (by
          intro q hq
          simpa using ModelManager.keys_split_ne hnodup' hq)]
      rw [List.eraseP_cons_of_pos (by simp)]
    have hlen12 : (l1 ++ l2).length = st.max_loaded_models - 1 := by
      have : (x :: xs).length = (l1 ++ l2).length + 1 := by
        rw [heq]
        simp
        omega
      rw [hload] at hcap
      omega
    have hev : ModelManager.evictLoop st.max_loaded_models (x :: xs)
        = (l1 ++ l2, [.evict y.1]) := by
      rw [ModelManager.evictLoop_step (by rw [← hload, hcap]) hm, hrm,
        ModelManager.evictLoop_stop (by rw [hlen12]; omega)]
    refine ⟨l1, y, l2, heq, hl1, hl2, ?_, ?_⟩ <;>
      · unfold ModelManager.get
        rw [hload] at hmiss ⊢
        rw [hmiss]
        simp only [hev, hfs]
        rfl

/-- Witness for C3: the single loaded 1.5B entry is the (first) LRU entry
and is evicted before the 7B load. -/
theorem C3_evicts_first_lru_witness :
    ((sample_st_cap.loaded.map Prod.fst).Nodup
      ∧ ModelManager.lookupLoaded sample_st_cap.loaded .vibevoice7b = none
      ∧ sample_st_cap.loaded.length = sample_st_cap.max_loaded_models
      ∧ 1 ≤ sample_st_cap.max_loaded_models
      ∧ (fun _ => true) (ModelManager.resolve_model_path "/models" .vibevoice7b) = true)
    ∧ ∃ l1 y l2, sample_st_cap.loaded = l1 ++ y :: l2
        ∧ (∀ z ∈ l1, y.2.last_used_at < z.2.last_used_at)
        ∧ (∀ z ∈ l2, y.2.last_used_at ≤ z.2.last_used_at)
        ∧ (ModelManager.get "/models" (fun _ => true) false 10 1 sample_st_cap
            .vibevoice7b).events = [.evict y.1, .load .vibevoice7b]
        ∧ (ModelManager.get "/models" (fun _ => true) false 10 1 sample_st_cap
            .vibevoice7b).state.loaded
          = (l1 ++ l2) ++ [(.vibevoice7b,
              { model_id := .vibevoice7b
                model_path := ModelManager.resolve_model_path "/models" .vibevoice7b
                device := ModelManager.pick_device false
                token := 1
                last_used_at := 10 })] := by
  refine ⟨⟨by decide, by decide, by decide, by decide, rfl⟩, ?_⟩
  exact C3_evicts_first_lru "/models" (fun _ => true) false 10 1 sample_st_cap .vibevoice7b
    (by decide) (by decide) (by decide) (by decide) rfl

theorem maintenance_tick_terminate_iff (exitW lastU : Int) (mgr : ManagerState)
    (act : ActivityState) (now : Int) :
    (maintenance_tick exitW lastU mgr act now).outcome = .terminate ↔
      (0 < exitW ∧ act.seen_user_request = true ∧ ¬0 < act.active_user_requests ∧
        exitW ≤ now - act.last_user_request_at) := by
  unfold maintenance_tick
  by_cases h1 : exitW ≤ 0
  · simp only [if_pos h1]
    constructor
    · intro h
      exact absurd h (by simp)
    · rintro ⟨ha, -, -, -⟩
      omega
  · simp only [if_neg h1]
    cases hseen : act.seen_user_request with
    | false =>
      simp only [Bool.not_false, if_true]
      constructor
      · intro h
        exact absurd h (by simp)
      · rintro ⟨-, hs, -, -⟩
        exact absurd hs (by simp [hseen])
    | true =>
      simp only [Bool.not_true, if_false]
      by_cases h3 : 0 < act.active_user_requests
      · simp only [if_pos h3]
        constructor
        · intro h
          exact absurd h (by simp)
        · rintro ⟨-, -, hc, -⟩
          exact absurd h3 hc
      · simp only [if_neg h3]
        by_cases h4 : now - act.last_user_request_at < exitW
        · simp only [if_pos h4]
          constructor
          · intro h
            exact absurd h (by simp)
          · rintro ⟨-, -, -, hd⟩
            omega
        · simp only [if_neg h4]
          exact ⟨fun _ => ⟨by omega, by trivial, h3, by omega⟩, fun _ => rfl⟩

theorem maintenance_loop_le_one (exitW : Int) :
    ∀ (ticks : List (ActivityState × Int)) (lastU : Int) (mgr : ManagerState),
      maintenance_loop exitW lastU mgr ticks ≤ 1 := by
  intro ticks
  induction ticks with
  | nil =>
    intro lastU mgr
    simp [maintenance_loop]
  | cons t rest ih =>
    intro lastU mgr
    obtain ⟨act, now⟩ := t
    simp only [maintenance_loop]
    cases (maintenance_tick exitW lastU mgr act now).outcome
    · exact ih _ _
    · exact le_rfl

theorem maintenance_loop_skipped (exitW : Int) (hw : exitW ≤ 0) :
    ∀ (ticks : List (ActivityState × Int)) (lastU : Int) (mgr : ManagerState),
      maintenance_loop exitW lastU mgr ticks = 0 := by
  intro ticks
  induction ticks with
  | nil =>
    intro lastU mgr
    simp [maintenance_loop]
  | cons t rest ih =>
    intro lastU mgr
    obtain ⟨act, now⟩ := t
    simp only [maintenance_loop]
    cases hout : (maintenance_tick exitW lastU mgr act now).outcome
    · exact ih _ _
    · have := (maintenance_tick_terminate_iff exitW lastU mgr act now).mp hout
      omega

theorem maintenance_loop_fires (exitW : Int) (hw : 0 < exitW) :
    ∀ (ticks : List (ActivityState × Int)) (lastU : Int) (mgr : ManagerState),
      (∃ p ∈ ticks, p.1.seen_user_request = true ∧ ¬0 < p.1.active_user_requests ∧
        exitW ≤ p.2 - p.1.last_user_request_at) →
      maintenance_loop exitW lastU mgr ticks = 1 := by
  intro ticks
  induction ticks with
  | nil =>
    intro lastU mgr h
    simp at h
  | cons t rest ih =>
    intro lastU mgr h
    obtain ⟨act, now⟩ := t
    simp only [maintenance_loop]
    cases hout : (maintenance_tick exitW lastU mgr act now).outcome
    · rcases h with ⟨p, hp, hcond⟩
      rcases List.mem_cons.mp hp with rfl | hp
      · exact absurd ((maintenance_tick_terminate_iff exitW lastU mgr act now).mpr
          ⟨hw, hcond.1, hcond.2.1, hcond.2.2⟩) (by simp [hout])
      · exact ih _ _ ⟨p, hp, hcond⟩
    · rfl

/-- **C4.** The idle-shutdown watchdog: a tick requests termination iff
the idle window is enabled (`> 0`), a tracked request has been seen, no
tracked request is active, and the idle time has reached the window (so it
never fires while requests are active, never fires before any request was
seen, and is skipped entirely for a window `≤ 0`); over any run the loop
requests termination at most once and stops at that tick, and if the
window is enabled and some tick of the run satisfies the firing
conditions, exactly one termination request fires. -/
theorem C4_idle_shutdown_watchdog :
    (∀ (exitW lastU : Int) (mgr : ManagerState) (act : ActivityState) (now : Int),
      0 ≤ act.active_user_requests →
      ((maintenance_tick exitW lastU mgr act now).outcome = .terminate ↔
        (0 < exitW ∧ act.seen_user_request = true ∧ act.active_user_requests = 0 ∧
          exitW ≤ now - act.last_user_request_at)))
    ∧ (∀ (exitW lastU : Int) (mgr : ManagerState) (ticks : List (ActivityState × Int)),
        maintenance_loop exitW lastU mgr ticks ≤ 1)
    ∧ (∀ (exitW lastU : Int) (mgr : ManagerState) (ticks : List (ActivityState × Int)),
        exitW ≤ 0 → maintenance_loop exitW lastU mgr ticks = 0)
    ∧ (∀ (exitW lastU : Int) (mgr : ManagerState) (ticks : List (ActivityState × Int)),
        0 < exitW →
        (∃ p ∈ ticks, p.1.seen_user_request = true ∧ ¬0 < p.1.active_user_requests ∧
          exitW ≤ p.2 - p.1.last_user_request_at) →
        maintenance_loop exitW lastU mgr ticks = 1) := by
  refine ⟨?_, ?_, ?_, ?_⟩
  · intro exitW lastU mgr act now hnonneg
    rw [maintenance_tick_terminate_iff]
    constructor
    · rintro ⟨a, b, c, d⟩
      exact ⟨a, b, by omega, d⟩
    · rintro ⟨a, b, c, d⟩
      exact ⟨a, b, by omega, d⟩
  · intro exitW lastU mgr ticks
    exact maintenance_loop_le_one exitW ticks lastU mgr
  · intro exitW lastU mgr ticks hw
    exact maintenance_loop_skipped exitW hw ticks lastU mgr
  · intro exitW lastU mgr ticks hw h
    exact maintenance_loop_fires exitW hw ticks lastU mgr h

/-- Witness for C4 at a concrete run: an idle tick fires exactly once. -/
theorem C4_idle_shutdown_watchdog_witness :
    (0 ≤ ({ active_user_requests := 0, last_user_request_at := 0,
            seen_user_request := true } : ActivityState).active_user_requests
      ∧ ((maintenance_tick 60 0 (ModelManager.init 900 1)
          { active_user_requests := 0, last_user_request_at := 0, seen_user_request := true }
          100).outcome = .terminate ↔
        (0 < (60 : Int)
          ∧ ({ active_user_requests := 0, last_user_request_at := 0,
               seen_user_request := true } : ActivityState).seen_user_request = true
          ∧ ({ active_user_requests := 0, last_user_request_at := 0,
               seen_user_request := true } : ActivityState).active_user_requests = 0
          ∧ (60 : Int) ≤ 100 - 0)))
    ∧ ((0 : Int) < 60
      ∧ maintenance_loop 60 0 (ModelManager.init 900 1)
          [({ active_user_requests := 0, last_user_request_at := 0,
              seen_user_request := true }, 100)] = 1) := by
  refine ⟨⟨by decide, ?_⟩, by decide, ?_⟩
  · exact C4_idle_shutdown_watchdog.1 60 0 (ModelManager.init 900 1)
      { active_user_requests := 0, last_user_request_at := 0, seen_user_request := true }
      100 (by decide)
  · exact C4_idle_shutdown_watchdog.2.2.2 60 0 (ModelManager.init 900 1)
      [({ active_user_requests := 0, last_user_request_at := 0, seen_user_request := true },
        100)] (by decide)
      ⟨_, List.mem_singleton.mpr rfl, by decide, by decide, by decide⟩

/-- **C9.** Requests to `/healthz` and `/ping` leave the process-wide
activity globals completely unchanged: neither the start bookkeeping nor
the `finally` bookkeeping of `_log_http_requests` touches
`hasSeenAnyRequest`, `activeRequestCount` or `lastActivityAt` for these
paths, so health probing never counts as activity and never postpones idle
shutdown. -/
theorem C9_health_probes_do_not_touch_activity :
    ∀ (now fin : Int) (a : ActivityState),
      on_request_start "/healthz" now a = a
      ∧ on_request_finish "/healthz" now a = a
      ∧ on_request_start "/ping" now a = a
      ∧ on_request_finish "/ping" now a = a
      ∧ log_http_requests "/healthz" now fin a = a
      ∧ log_http_requests "/ping" now fin a = a := by
  intro now fin a
  simp [on_request_start, on_request_finish, log_http_requests, track_for_idle]

theorem matchSpeakerLine_nil : matchSpeakerLine [] = none := by decide

theorem processSpeakerText_ok_ids {e : Bool} {m : Int} {st st1 : NormState}
    {sid : Nat} {text : List Char}
    (h : processSpeakerText e m st sid text = .ok st1) :
    st1.speaker_ids = insertSet st.speaker_ids sid
      ∧ (insertSet st.speaker_ids sid).length ≤ 1 := by
  unfold processSpeakerText at h
  by_cases hcard : 1 < (insertSet st.speaker_ids sid).length
  · rw [if_pos hcard] at h
    cases h
  · rw [if_neg hcard] at h
    cases h
    exact ⟨rfl, by omega⟩

theorem insertSet_mem_self (l : List Nat) (n : Nat) : n ∈ insertSet l n := by
  unfold insertSet
  by_cases h : n ∈ l <;> simp [h]

theorem insertSet_mem_of_mem {l : List Nat} {a : Nat} (n : Nat) (h : a ∈ l) :
    a ∈ insertSet l n := by
  unfold insertSet
  by_cases hn : n ∈ l <;> simp [hn, h]

theorem processLine_ok_ids {e : Bool} {m : Int} {st st1 : NormState} {raw : List Char}
    (h : processLine e m st raw = .ok st1) :
    (∀ i ∈ st.speaker_ids, i ∈ st1.speaker_ids)
      ∧ (∀ sid, lineIdOf raw = some sid → sid ∈ st1.speaker_ids)
      ∧ (st.speaker_ids.length ≤ 1 → st1.speaker_ids.length ≤ 1) := by
  unfold processLine at h
  by_cases hline : (pystrip raw).isEmpty
  · rw [if_pos hline] at h
    cases h
    refine ⟨fun i hi => hi, ?_, fun hh => hh⟩
    intro sid hsid
    have hnil : pystrip raw = [] := by simpa using hline
    rw [lineIdOf, hnil, matchSpeakerLine_nil] at hsid
    cases hsid
  · rw [if_neg hline] at h
    cases hmatch : matchSpeakerLine (pystrip raw) with
    | some p =>
      obtain ⟨sid, text⟩ := p
      rw [hmatch] at h
      obtain ⟨hids, hlen⟩ := processSpeakerText_ok_ids h
      refine ⟨?_, ?_, ?_⟩
      · intro i hi
        rw [hids]
        exact insertSet_mem_of_mem sid hi
      · intro sid' hsid'
        have hs : sid' = sid := by
          rw [lineIdOf, hmatch] at hsid'
          simpa using hsid'.symm
        rw [hids, hs]
        exact insertSet_mem_self _ _
      · intro _
        rw [hids]
        exact hlen
    | none =>
      rw [hmatch] at h
      cases hcur : st.current_speaker_id with
      | none =>
        rw [hcur] at h
        cases h
      | some sid =>
        rw [hcur] at h
        obtain ⟨hids, hlen⟩ := processSpeakerText_ok_ids h
        refine ⟨?_, ?_, ?_⟩
        · intro i hi
          rw [hids]
          exact insertSet_mem_of_mem sid hi
        · intro sid' hsid'
          rw [lineIdOf, hmatch] at hsid'
          cases hsid'
        · intro _
          rw [hids]
          exact hlen

theorem processLines_ok_ids {e : Bool} {m : Int} :
    ∀ (lines : List (List Char)) (st st' : NormState),
      processLines e m st lines = .ok st' →
      (∀ i ∈ st.speaker_ids, i ∈ st'.speaker_ids)
        ∧ (∀ i ∈ lines.filterMap lineIdOf, i ∈ st'.speaker_ids)
        ∧ (st.speaker_ids.length ≤ 1 → st'.speaker_ids.length ≤ 1) := by
  intro lines
  induction lines with
  | nil =>
    intro st st' h
    cases h
    exact ⟨fun i hi => hi, by simp, fun hh => hh⟩
  | cons raw rest ih =>
    intro st st' h
    simp only [processLines] at h
    cases hpl : processLine e m st raw with
    | error er =>
      rw [hpl] at h
      cases h
    | ok st1 =>
      rw [hpl] at h
      obtain ⟨hmono, hsid, hcard⟩ := processLine_ok_ids hpl
      obtain ⟨hmono', hmids', hcard'⟩ := ih st1 st' h
      refine ⟨fun i hi => hmono' _ (hmono i hi), ?_, ?_⟩
      · intro i hi
        simp only [List.filterMap_cons] at hi
        cases hl : lineIdOf raw with
        | none =>
          rw [hl] at hi
          exact hmids' i hi
        | some sid =>
          rw [hl] at hi
          rcases List.mem_cons.mp hi with rfl | hi
          · exact hmono' _ (hsid i hl)
          · exact hmids' i hi
      · intro h1
        exact hcard' (hcard h1)

theorem mem_of_length_le_one {l : List Nat} (h : l.length ≤ 1) {i j : Nat}
    (hi : i ∈ l) (hj : j ∈ l) : i = j := by
  match l, h with
  | [], _ => cases hi
  | [x], _ =>
    have hi' : i = x := by simpa using hi
    have hj' : j = x := by simpa using hj
    rw [hi', hj']

/-- **C7.** `normalize_single_speaker_script` raises a `ValueError` when
the input is empty after trimming, and whenever the script mixes two
distinct speaker identities (two speaker-prefixed lines carrying different
ids); in both cases no canonical script is returned. -/
theorem C7_normalize_rejects_empty_and_multispeaker :
    ∀ (enable_cn : Bool) (max_chars : Int) (script : List Char),
      ((pystrip script).isEmpty = true →
        isErr (normalize_single_speaker_script enable_cn max_chars script) = true)
      ∧ (∀ i j, i ∈ matchedIds script → j ∈ matchedIds script → i ≠ j →
          isErr (normalize_single_speaker_script enable_cn max_chars script) = true) := by
  intro e m script
  constructor
  · intro h
    unfold normalize_single_speaker_script
    rw [if_pos h]
    rfl
  · intro i j hi hj hne
    unfold normalize_single_speaker_script
    by_cases hemp : (pystrip script).isEmpty
    · rw [if_pos hemp]
      rfl
    · rw [if_neg hemp]
      cases hpl : processLines e m
          { out_lines := [], speaker_ids := [], current_speaker_id := none }
          (pysplitlines script) with
      | error er => rfl
      | ok st' =>
        exfalso
        obtain ⟨-, hmids, hcard⟩ := processLines_ok_ids (pysplitlines script) _ st' hpl
        have hi' : i ∈ st'.speaker_ids := hmids i hi
        have hj' : j ∈ st'.speaker_ids := hmids j hj
        exact hne (mem_of_length_le_one (hcard (by simp)) hi' hj')

/-- Witness for C7: an explicitly mixed two-speaker script raises, and so
does a whitespace-only script. -/
theorem C7_normalize_rejects_witness :
    ((0 : Nat) ∈ matchedIds "Speaker 0: hi\nSpeaker 1: yo".toList
      ∧ (1 : Nat) ∈ matchedIds "Speaker 0: hi\nSpeaker 1: yo".toList
      ∧ (0 : Nat) ≠ 1
      ∧ isErr (normalize_single_speaker_script false 150
          "Speaker 0: hi\nSpeaker 1: yo".toList) = true)
    ∧ ((pystrip "  ".toList).isEmpty = true
      ∧ isErr (normalize_single_speaker_script false 150 "  ".toList) = true) := by
  refine ⟨⟨by decide, by decide, by decide, ?_⟩, by decide, ?_⟩
  · exact (C7_normalize_rejects_empty_and_multispeaker false 150
      "Speaker 0: hi\nSpeaker 1: yo".toList).2 0 1 (by decide) (by decide) (by decide)
  · exact (C7_normalize_rejects_empty_and_multispeaker false 150 "  ".toList).1 (by decide)

theorem pyrfind_fold_spec (s : List Char) (c : Char) (start : Nat) :
    ∀ n : Nat,
      (∀ i, (List.range n).foldl
          (fun acc i => if start ≤ i ∧ s.get? i = some c then some i else acc) none = some i →
        start ≤ i ∧ i < n ∧ s.get? i = some c ∧
          ∀ j, i < j → j < n → ¬(start ≤ j ∧ s.get? j = some c))
      ∧ ((List.range n).foldl
          (fun acc i => if start ≤ i ∧ s.get? i = some c then some i else acc) none = none →
        ∀ j, j < n → ¬(start ≤ j ∧ s.get? j = some c)) := by
  intro n
  induction n with
  | zero =>
    constructor
    · intro i h
      simp [List.range_zero] at h
    · intro _ j hj
      omega
  | succ n ih =>
    rw [List.range_succ, List.foldl_append, List.foldl_cons, List.foldl_nil]
    by_cases hc : start ≤ n ∧ s.get? n = some c
    · rw [if_pos hc]
      constructor
      · intro i h
        cases h
        exact ⟨hc.1, by omega, hc.2, by omega⟩
      · intro h
        cases h
    · rw [if_neg hc]
      constructor
      · intro i h
        obtain ⟨h1, h2, h3, h4⟩ := ih.1 i h
        refine ⟨h1, by omega, h3, ?_⟩
        intro j hij hjn
        by_cases hjn' : j < n
        · exact h4 j hij hjn'
        · have : j = n := by omega
          subst this
          exact hc
      · intro h j hj
        by_cases hjn : j < n
        · exact ih.2 h j hjn
        · have : j = n := by omega
          subst this
          exact hc

theorem pyrfind_some {s : List Char} {c : Char} {start stop i : Nat}
    (h : pyrfind s c start stop = some i) :
    start ≤ i ∧ i < stop ∧ i < s.length ∧ s.get? i = some c ∧
      ∀ j, i < j → j < stop → start ≤ j → s.get? j ≠ some c := by
  unfold pyrfind at h
  obtain ⟨h1, h2, h3, h4⟩ := (pyrfind_fold_spec s c start (min stop s.length)).1 i h
  refine ⟨h1, by omega, by omega, h3, ?_⟩
  intro j hij hjstop hjstart hval
  by_cases hjlen : j < s.length
  · exact h4 j hij (by omega) ⟨hjstart, hval⟩
  · rw [List.get?_eq_none.mpr (by omega)] at hval
    cases hval

theorem pyrfind_none {s : List Char} {c : Char} {start stop : Nat}
    (h : pyrfind s c start stop = none) :
    ∀ j, start ≤ j → j < stop → s.get? j ≠ some c := by
  unfold pyrfind at h
  intro j hjstart hjstop hval
  by_cases hjlen : j < s.length
  · exact (pyrfind_fold_spec s c start (min stop s.length)).2 h j (by omega) ⟨hjstart, hval⟩
  · rw [List.get?_eq_none.mpr (by omega)] at hval
    cases hval

theorem cutAt_pos (mc minCut : Nat) (h1 : 1 ≤ mc) (t : List Char) :
    1 ≤ cutAt mc minCut t := by
  unfold cutAt
  cases h : pyrfind t split_break_char minCut mc with
  | some i => dsimp only; omega
  | none => dsimp only; omega

theorem cutAt_le (mc minCut : Nat) (t : List Char) : cutAt mc minCut t ≤ mc := by
  unfold cutAt
  cases h : pyrfind t split_break_char minCut mc with
  | some i =>
    have := pyrfind_some h
    dsimp only
    omega
  | none => dsimp only; omega

theorem cutAt_eq_claimCutSpec (t : List Char) {mc : Nat} (h1 : 1 ≤ mc) :
    cutAt mc (max 1 (mc / 2)) t = claimCutSpec t mc := by
  by_cases h2 : 2 ≤ mc
  · have hmax : max 1 (mc / 2) = mc / 2 := by omega
    rw [cutAt, claimCutSpec, hmax]
  · have hmc : mc = 1 := by omega
    subst hmc
    have hl : pyrfind t split_break_char (max 1 (1 / 2)) 1 = none := by
      cases h : pyrfind t split_break_char (max 1 (1 / 2)) 1 with
      | none => rfl
      | some i =>
        have := pyrfind_some h
        omega
    rw [cutAt, claimCutSpec, hl]
    cases h : pyrfind t split_break_char (1 / 2) 1 with
    | none => rfl
    | some i =>
      have := pyrfind_some h
      dsimp only
      omega

theorem pystrip_length_le (s : List Char) : (pystrip s).length ≤ s.length := by
  unfold pystrip
  have ha : (s.dropWhile Char.isWhitespace).length ≤ s.length :=
    (List.dropWhile_suffix _).length_le
  have hb : ((s.dropWhile Char.isWhitespace).reverse.dropWhile Char.isWhitespace).length
      ≤ (s.dropWhile Char.isWhitespace).reverse.length :=
    (List.dropWhile_suffix _).length_le
  simp only [List.length_reverse] at hb ⊢
  omega

theorem splitLoop_stop {mc minCut : Nat} {t : List Char} (h : ¬mc < t.length) :
    splitLoop mc minCut t = if t.isEmpty then [] else [t] := by
  rw [splitLoop]
  simp [h]

theorem splitLoop_step {mc minCut : Nat} {t : List Char} (h : mc < t.length)
    (hc : cutAt mc minCut t ≠ 0) :
    splitLoop mc minCut t =
      (if (pystrip (t.take (cutAt mc minCut t))).isEmpty then []
        else [pystrip (t.take (cutAt mc minCut t))])
      ++ splitLoop mc minCut (pystrip (t.drop (cutAt mc minCut t))) := by
  rw [splitLoop]
  rw [dif_pos h]
  dsimp only
  rw [dif_neg hc]

theorem splitLoop_parts_le {mc minCut : Nat} (h1 : 1 ≤ mc) :
    ∀ (n : Nat) (t : List Char), t.length ≤ n →
      ∀ p ∈ splitLoop mc minCut t, p.length ≤ mc := by
  intro n
  induction n with
  | zero =>
    intro t ht p hp
    have hnil : t = [] := List.eq_nil_of_length_eq_zero (Nat.le_zero.mp ht)
    subst hnil
    rw [splitLoop_stop (by simp)] at hp
    simp at hp
  | succ n ih =>
    intro t ht p hp
    by_cases hlen : mc < t.length
    · have hc0 : cutAt mc minCut t ≠ 0 := by
        have := cutAt_pos mc minCut h1 t
        omega
      rw [splitLoop_step hlen hc0] at hp
      rcases List.mem_append.mp hp with hp | hp
      · by_cases he : (pystrip (t.take (cutAt mc minCut t))).isEmpty
        · rw [if_pos he] at hp
          cases hp
        · rw [if_neg he] at hp
          have hpe : p = pystrip (t.take (cutAt mc minCut t)) := by simpa using hp
          subst hpe
          have hs := pystrip_length_le (t.take (cutAt mc minCut t))
          have htk : (t.take (cutAt mc minCut t)).length ≤ cutAt mc minCut t := by simp
          have hle := cutAt_le mc minCut t
          omega
      · refine ih (pystrip (t.drop (cutAt mc minCut t))) ?_ p hp
        have hs := pystrip_length_le (t.drop (cutAt mc minCut t))
        have hdr : (t.drop (cutAt mc minCut t)).length = t.length - cutAt mc minCut t :=
          List.length_drop _ _
        have hcp := cutAt_pos mc minCut h1 t
        omega
    · rw [splitLoop_stop hlen] at hp
      by_cases he : t.isEmpty
      · rw [if_pos he] at hp
        cases hp
      · rw [if_neg he] at hp
        have hpe : p = t := by simpa using hp
        subst hpe
        omega

/-- **C10.** `_split_text_by_max_chars`: for `max_chars ≤ 0` the input
comes back unsplit as a single part; for `max_chars ≥ 1` every returned
part has length at most `max_chars`; when splitting is needed the first
cut lands exactly at `claimCutSpec`: one past the last period found in the
window `[max_chars / 2, max_chars)` of the remaining text, hard-cutting at
`max_chars` only when no such period exists (the last two conjuncts pin
down `pyrfind` as "the last period in the window"). -/
theorem C10_split_text_by_max_chars_spec :
    (∀ (text : List Char) (max_chars : Int), max_chars ≤ 0 →
      split_text_by_max_chars text max_chars = [text])
    ∧ (∀ (text : List Char) (max_chars : Int), 1 ≤ max_chars →
        ∀ p ∈ split_text_by_max_chars text max_chars, (p.length : Int) ≤ max_chars)
    ∧ (∀ (text : List Char) (max_chars : Int), 1 ≤ max_chars →
        max_chars < (text.length : Int) →
        split_text_by_max_chars text max_chars =
          (if (pystrip (text.take (claimCutSpec text max_chars.toNat))).isEmpty then []
            else [pystrip (text.take (claimCutSpec text max_chars.toNat))])
          ++ splitLoop max_chars.toNat (max 1 (max_chars.toNat / 2))
              (pystrip (text.drop (claimCutSpec text max_chars.toNat))))
    ∧ (∀ (s : List Char) (start stop i : Nat),
        pyrfind s split_break_char start stop = some i →
          start ≤ i ∧ i < stop ∧ s.get? i = some split_break_char ∧
            ∀ j, i < j → j < stop → start ≤ j → s.get? j ≠ some split_break_char)
    ∧ (∀ (s : List Char) (start stop : Nat),
        pyrfind s split_break_char start stop = none →
          ∀ j, start ≤ j → j < stop → s.get? j ≠ some split_break_char) := by
  refine ⟨?_, ?_, ?_, ?_, ?_⟩
  · intro text mc h
    unfold split_text_by_max_chars
    rw [if_pos (Or.inl h)]
  · intro text mc h1 p hp
    unfold split_text_by_max_chars at hp
    by_cases hcond : mc ≤ 0 ∨ (text.length : Int) ≤ mc
    · rw [if_pos hcond] at hp
      have hpe : p = text := by simpa using hp
      subst hpe
      rcases hcond with hcond | hcond
      · omega
      · exact hcond
    · rw [if_neg hcond] at hp
      have h1' : 1 ≤ mc.toNat := by omega
      have := splitLoop_parts_le h1' text.length text le_rfl p hp
      omega
  · intro text mc h1 h2
    unfold split_text_by_max_chars
    rw [if_neg (by omega)]
    have hlen : mc.toNat < text.length := by omega
    have h1' : 1 ≤ mc.toNat := by omega
    have hc0 : cutAt mc.toNat (max 1 (mc.toNat / 2)) text ≠ 0 := by
      have := cutAt_pos mc.toNat (max 1 (mc.toNat / 2)) h1' text
      omega
    rw [splitLoop_step hlen hc0, cutAt_eq_claimCutSpec text h1']
  · intro s start stop i h
    obtain ⟨ha, hb, -, hd, he⟩ := pyrfind_some h
    exact ⟨ha, hb, hd, he⟩
  · intro s start stop h
    exact pyrfind_none h

/-- Witness for C10 at concrete inputs: a non-positive limit returns the
input unsplit; with limit 3 on `"ab.cd"` the parts respect the limit and
the first cut is one past the period at index 2 (the last one in the
window `[1, 3)`). -/
theorem C10_split_text_witness :
    ((-1 : Int) ≤ 0 ∧ split_text_by_max_chars "abc".toList (-1) = ["abc".toList])
    ∧ ((1 : Int) ≤ 3 ∧ "ab.".toList ∈ split_text_by_max_chars "ab.cd".toList 3
        ∧ (("ab.".toList : List Char).length : Int) ≤ 3)
    ∧ ((3 : Int) < ("ab.cd".toList.length : Int)
        ∧ split_text_by_max_chars "ab.cd".toList 3 =
          (if (pystrip ("ab.cd".toList.take (claimCutSpec "ab.cd".toList (3 : Int).toNat))).isEmpty
            then []
            else [pystrip ("ab.cd".toList.take (claimCutSpec "ab.cd".toList (3 : Int).toNat))])
          ++ splitLoop (3 : Int).toNat (max 1 ((3 : Int).toNat / 2))
              (pystrip ("ab.cd".toList.drop (claimCutSpec "ab.cd".toList (3 : Int).toNat))))
    ∧ (pyrfind "ab.cd".toList split_break_char 1 3 = some 2
        ∧ 1 ≤ 2 ∧ 2 < 3 ∧ "ab.cd".toList.get? 2 = some split_break_char)
    ∧ (pyrfind "abcd".toList split_break_char 1 3 = none
        ∧ "abcd".toList.get? 2 ≠ some split_break_char) := by
  have hmem : "ab.".toList ∈ split_text_by_max_chars "ab.cd".toList 3 := by
    simp [split_text_by_max_chars, splitLoop, cutAt, pyrfind, pystrip, split_break_char,
      List.range_succ]
  refine ⟨⟨by decide, ?_⟩, ⟨by decide, hmem, ?_⟩, ⟨by decide, ?_⟩, ⟨by decide, ?_⟩,
    by decide, ?_⟩
  · exact C10_split_text_by_max_chars_spec.1 "abc".toList (-1) (by decide)
  · exact C10_split_text_by_max_chars_spec.2.1 "ab.cd".toList 3 (by decide) "ab.".toList hmem
  · exact C10_split_text_by_max_chars_spec.2.2.1 "ab.cd".toList 3 (by decide) (by decide)
  · obtain ⟨ha, hb, hd, -⟩ := C10_split_text_by_max_chars_spec.2.2.2.1 "ab.cd".toList 1 3 2
      (by decide)
    exact ⟨ha, hb, hd⟩
  · exact C10_split_text_by_max_chars_spec.2.2.2.2 "abcd".toList 1 3 (by decide) 2
      (by decide) (by decide)

end VibeVoice
